import Mathlib

/-!
Verification of the CBUtilLib sorted-array dictionaries (IntDict / StrDict)
and their value iterators against their natural-language specification.

The C sources are shallowly embedded: the backing array becomes a `List` of
items, `size_t` values become `Nat` (with `SIZE_MAX` made explicit where the
code consults it), nullable pointers become `Option`, and the outcome of
`realloc` is threaded in as an explicit `allocOk : Bool` input.  The search
cache (`sought_key` / `candidate`) is carried in the dictionary state; the
`candidate` pointer is represented by the index of the slot it points at,
which is faithful for every state reachable through the public API because
every mutation of the backing array resets `candidate` to null before the
array can move.
-/

namespace CBUtilLib

/-- `SIZE_MAX` for the 64-bit `size_t` the library is built with. -/
def SIZE_MAX : Nat := 2 ^ 64 - 1

/-- `ArrayInitSize` from IntDict.c / the string dictionary source. -/
def ArrayInitSize : Nat := 4

/-- `ArrayGrowthFactor` from IntDict.c / the string dictionary source. -/
def ArrayGrowthFactor : Nat := 2

/-- An entry of the integer dictionary: `IntDictItem` from IntDict.h.
`IntDictKey` is `long int`, embedded as `Int`; the `_Optional void *value`
is an opaque nullable reference, embedded as `Option α`. -/
structure IntDictItem (α : Type) where
  key : Int
  value : Option α
deriving DecidableEq

instance {α : Type} : Inhabited (IntDictItem α) := ⟨⟨0, none⟩⟩

/-- The `IntDict` structure from IntDict.h.  `items` models the first
`nitems` elements of `array`; `array == NULL` corresponds to `nalloc = 0`
(the two coincide in every reachable state).  `candidate` is the index of
the slot the C `candidate` pointer refers to, or `none` for `NULL`. -/
structure IntDict (α : Type) where
  nalloc : Nat
  items : List (IntDictItem α)
  sought_key : Int
  candidate : Option Nat
deriving DecidableEq

/-- `intdict_init`: `*dict = (IntDict){0}`. -/
def intdict_init {α : Type} : IntDict α := ⟨0, [], 0, none⟩

/-- Models C `bsearch` over the item array driven by `compare_key_n_item`
(IntDict.c), which records every probed slot in `dict->candidate`; the
function returns the index recorded by the *last* comparator call (the
glibc halving search), or `last` if no comparison happens. -/
def bsearch_last_probe {α : Type} (l : List (IntDictItem α)) (key : Int) :
    Nat → Nat → Option Nat → Option Nat
  | lo, hi, last =>
    if h : lo < hi then
      if key < (l.getD ((lo + hi) / 2) default).key then
        bsearch_last_probe l key lo ((lo + hi) / 2) (some ((lo + hi) / 2))
      else if (l.getD ((lo + hi) / 2) default).key < key then
        bsearch_last_probe l key ((lo + hi) / 2 + 1) hi (some ((lo + hi) / 2))
      else some ((lo + hi) / 2)
    else last
termination_by lo hi _ => hi - lo
decreasing_by
  · have hmid : (lo + hi) / 2 < hi := Nat.div_lt_of_lt_mul (by omega)
    have hlo : lo ≤ (lo + hi) / 2 := Nat.le_div_iff_mul_le (by omega) |>.mpr (by omega)
    omega
  · have hlo : lo ≤ (lo + hi) / 2 := Nat.le_div_iff_mul_le (by omega) |>.mpr (by omega)
    omega

/-- The forward half of the local linear correction in `intdict_bisect_left`:
`do { ++index; } while (index < nitems && array[index].key < key)`. -/
def scanFwd {α : Type} (l : List (IntDictItem α)) (key : Int) (i : Nat) : Nat :=
  if h : i + 1 < l.length ∧ (l.getD (i + 1) default).key < key then
    scanFwd l key (i + 1)
  else i + 1
termination_by l.length - i
decreasing_by omega

/-- The backward half of the local linear correction in `intdict_bisect_left`:
`while (index > 0 && array[index - 1].key >= key) { --index; }`. -/
def scanBack {α : Type} (l : List (IntDictItem α)) (key : Int) (i : Nat) : Nat :=
  if h : 0 < i ∧ key ≤ (l.getD (i - 1) default).key then
    scanBack l key (i - 1)
  else i
termination_by i
decreasing_by omega

/-- The local linear correction applied to a candidate slot index `ci`
(the if/else on `array[index].key < key` in `intdict_bisect_left`). -/
def correct {α : Type} (l : List (IntDictItem α)) (key : Int) (ci : Nat) : Nat :=
  if (l.getD ci default).key < key then scanFwd l key ci else scanBack l key ci

/-- The forward scan of `intdict_bisect_right`:
`while (index < nitems && array[index].key <= key) { ++index; }`. -/
def scanRightLE {α : Type} (l : List (IntDictItem α)) (key : Int) (i : Nat) : Nat :=
  if h : i < l.length ∧ (l.getD i default).key ≤ key then
    scanRightLE l key (i + 1)
  else i
termination_by l.length - i
decreasing_by omega

/-- The cache consultation at the top of `intdict_bisect_left`: a cached
candidate for a different sought key is discarded. -/
def bisect_discard {α : Type} (dict : IntDict α) (key : Int) : IntDict α :=
  if dict.candidate ≠ none ∧ dict.sought_key ≠ key then
    { dict with candidate := none }
  else dict

/-- The fresh-search step of `intdict_bisect_left`: with no (surviving)
cached candidate, record the sought key and run the binary search, whose
comparator leaves the last probed slot in `candidate`. -/
def bisect_search {α : Type} (dict : IntDict α) (key : Int) : IntDict α :=
  if dict.candidate = none then
    { dict with sought_key := key,
                candidate := bsearch_last_probe dict.items key 0
                  dict.items.length none }
  else dict

/-- `intdict_bisect_left` (IntDict.c): returns the computed index and the
updated dictionary state (the cache fields may change). -/
def intdict_bisect_left {α : Type} (dict : IntDict α) (key : Int) :
    Nat × IntDict α :=
  if dict.nalloc = 0 then (0, dict)
  else if dict.items.length = 0 then (0, dict)
  else
    match (bisect_search (bisect_discard dict key) key).candidate with
    | some ci =>
        (correct (bisect_search (bisect_discard dict key) key).items key ci,
         bisect_search (bisect_discard dict key) key)
    | none => (0, bisect_search (bisect_discard dict key) key)

/-- `intdict_bisect_right` (IntDict.c). -/
def intdict_bisect_right {α : Type} (dict : IntDict α) (key : Int) :
    Nat × IntDict α :=
  if dict.nalloc = 0 then (0, dict)
  else
    (scanRightLE (intdict_bisect_left dict key).2.items key
       (intdict_bisect_left dict key).1,
     (intdict_bisect_left dict key).2)

/-- `intdict_remove_at` (IntDict.c): shift the tail down by one and drop the
entry at `index`; the cache's candidate pointer is nulled. -/
def intdict_remove_at {α : Type} (dict : IntDict α) (index : Nat) : IntDict α :=
  if dict.nalloc = 0 then dict
  else { dict with items := dict.items.eraseIdx index, candidate := none }

/-- The `new_size` computed in the growth path of `intdict_insert`
(IntDict.c lines 223-230): start at `ArrayInitSize`, otherwise double,
saturating at `SIZE_MAX`. -/
def grow_size (nalloc : Nat) : Nat :=
  if 0 < nalloc then
    if nalloc < SIZE_MAX / ArrayGrowthFactor then nalloc * ArrayGrowthFactor
    else SIZE_MAX
  else ArrayInitSize

/-- The tail of `intdict_insert` after the initial `intdict_bisect_left`
call: `d` is the dictionary state as mutated by that call and `ins_index`
its result.  `allocOk` is the outcome of the `realloc` call, threaded in as
an oracle.  The `if (!dict->array) return false` branch after a successful
growth is unreachable (growth leaves a non-null array) and therefore has no
counterpart here. -/
def insert_after_bisect {α : Type} (d : IntDict α) (ins_index : Nat)
    (key : Int) (value : Option α) (allocOk : Bool) :
    Bool × Option Nat × IntDict α :=
  if d.items.length = d.nalloc then
    if d.nalloc = SIZE_MAX then (false, none, d)
    else if allocOk then
      (true, some ins_index,
        { d with nalloc := grow_size d.nalloc, candidate := none,
                 items := d.items.insertIdx ins_index ⟨key, value⟩ })
    else (false, none, d)
  else
    (true, some ins_index,
      { d with candidate := none,
               items := d.items.insertIdx ins_index ⟨key, value⟩ })

/-- `intdict_insert` (IntDict.c): returns (success, output index, new
state). -/
def intdict_insert {α : Type} (dict : IntDict α) (key : Int) (value : Option α)
    (allocOk : Bool) : Bool × Option Nat × IntDict α :=
  insert_after_bisect (intdict_bisect_left dict key).2
    (intdict_bisect_left dict key).1 key value allocOk

/-- `intdict_find` (IntDict.c): returns (found, output position, new state). -/
def intdict_find {α : Type} (dict : IntDict α) (key : Int) :
    Bool × Option Nat × IntDict α :=
  if (intdict_bisect_left dict key).2.nalloc = 0 ∨
      (intdict_bisect_left dict key).2.items.length ≤
        (intdict_bisect_left dict key).1 ∨
      ((intdict_bisect_left dict key).2.items.getD
        (intdict_bisect_left dict key).1 default).key ≠ key then
    (false, none, (intdict_bisect_left dict key).2)
  else (true, some (intdict_bisect_left dict key).1,
    (intdict_bisect_left dict key).2)

/-! ### The rank characterisation of a sorted item list -/

/-- The keys of the item list are non-decreasing (the ordering invariant the
debug builds assert after every mutation). -/
def SortedItems {α : Type} (l : List (IntDictItem α)) : Prop :=
  l.Pairwise (fun a b => a.key ≤ b.key)

/-- Number of entries whose key is strictly below `key`: the specified value
of `bisect_left`. -/
def rank {α : Type} (l : List (IntDictItem α)) (key : Int) : Nat :=
  l.countP (fun it => it.key < key)

/-- Number of entries whose key is at most `key`: the specified value of
`bisect_right`. -/
def rankR {α : Type} (l : List (IntDictItem α)) (key : Int) : Nat :=
  l.countP (fun it => it.key ≤ key)

/-! ### The dictionary invariant and the behaviour of `bisect_left` -/

/-- The state invariant of an `IntDict`: keys non-decreasing, the item count
within the capacity, the capacity representable in `size_t`, and the cached
candidate (when present) pointing at a live slot. -/
def Inv {α : Type} (d : IntDict α) : Prop :=
  SortedItems d.items ∧ d.items.length ≤ d.nalloc ∧ d.nalloc ≤ SIZE_MAX ∧
    ∀ i, d.candidate = some i → i < d.items.length

/-! ### Reachable dictionary states -/

/-- One public dictionary operation (for reachability of states). -/
inductive DictOp (α : Type) where
  | ins (k : Int) (v : Option α) (allocOk : Bool)
  | rem (i : Nat)
  | bisectL (k : Int)
  | bisectR (k : Int)
  | findOp (k : Int)

/-- The state transition of one public operation. -/
def execOp {α : Type} (d : IntDict α) : DictOp α → IntDict α
  | .ins k v ok => (intdict_insert d k v ok).2.2
  | .rem i => intdict_remove_at d i
  | .bisectL k => (intdict_bisect_left d k).2
  | .bisectR k => (intdict_bisect_right d k).2
  | .findOp k => (intdict_find d k).2.2

/-- States reachable from `intdict_init` through the public API. -/
inductive Reachable {α : Type} : IntDict α → Prop where
  | init : Reachable intdict_init
  | step (d : IntDict α) (op : DictOp α) : Reachable d → Reachable (execOp d op)

/-! ### Cache-free reference implementations (claim C2's variants)

These definitions follow the specification's description of the
optimisation-free path: ignore any cached candidate and always perform
step 3's full binary search.  They read only the item list, never the
cache. -/

/-- `bisect_left` with the SearchCache disabled: always a fresh binary
search followed by the local linear correction. -/
def bisect_left_nocache {α : Type} (l : List (IntDictItem α)) (key : Int) : Nat :=
  if l.length = 0 then 0
  else
    match bsearch_last_probe l key 0 l.length none with
    | some ci => correct l key ci
    | none => 0

/-- `bisect_right` with the SearchCache disabled. -/
def bisect_right_nocache {α : Type} (l : List (IntDictItem α)) (key : Int) : Nat :=
  scanRightLE l key (bisect_left_nocache l key)

/-- `find` with the SearchCache disabled: the found position, if any. -/
def find_nocache {α : Type} (l : List (IntDictItem α)) (key : Int) : Option Nat :=
  if l.length ≤ bisect_left_nocache l key ∨
      (l.getD (bisect_left_nocache l key) default).key ≠ key then none
  else some (bisect_left_nocache l key)

/-! ### The value iterator -/

/-- The `IntDictVIter` structure from IntDict.h; `end` is a Lean keyword,
so the `end` field is named `endi`.  The `dict` pointer is passed
separately to each operation. -/
structure IntDictVIter where
  next_index : Nat
  endi : Nat
deriving DecidableEq

/-- `intdict_get_value_at` (IntDict.h): `dict->array[index].value`. -/
def intdict_get_value_at {α : Type} (dict : IntDict α) (index : Nat) :
    Option α :=
  (dict.items.getD index default).value

/-- `intdictviter_advance` (IntDictVIt.c): yields the value at `next_index`
(which may itself be null) and advances, or signals exhaustion with null. -/
def intdictviter_advance {α : Type} (iter : IntDictVIter) (dict : IntDict α) :
    Option α × IntDictVIter :=
  if iter.next_index < iter.endi then
    (intdict_get_value_at dict iter.next_index,
     { iter with next_index := iter.next_index + 1 })
  else (none, iter)

/-- `intdictviter_init` (IntDictVIt.c): set up the range from
`bisect_left(min_key)` to `bisect_right(max_key)` and immediately advance
once, returning that first value.  (The C initialiser calls
`intdict_bisect_left` and `intdict_bisect_right` in one initialiser list;
they are modelled left-then-right, which both yields the same indices.)
Returns (first value, iterator, dictionary state). -/
def intdictviter_init {α : Type} (dict : IntDict α) (min_key max_key : Int) :
    Option α × IntDictVIter × IntDict α :=
  ((intdictviter_advance
      ⟨(intdict_bisect_left dict min_key).1,
       (intdict_bisect_right (intdict_bisect_left dict min_key).2 max_key).1⟩
      (intdict_bisect_right (intdict_bisect_left dict min_key).2 max_key).2).1,
   (intdictviter_advance
      ⟨(intdict_bisect_left dict min_key).1,
       (intdict_bisect_right (intdict_bisect_left dict min_key).2 max_key).1⟩
      (intdict_bisect_right (intdict_bisect_left dict min_key).2 max_key).2).2,
   (intdict_bisect_right (intdict_bisect_left dict min_key).2 max_key).2)

/-- `intdictviter_all_init` (IntDictVIt.c): the full range `[0, count)`,
then one advance. -/
def intdictviter_all_init {α : Type} (dict : IntDict α) :
    Option α × IntDictVIter × IntDict α :=
  ((intdictviter_advance ⟨0, dict.items.length⟩ dict).1,
   (intdictviter_advance ⟨0, dict.items.length⟩ dict).2,
   dict)

/-- `intdictviter_remove` (IntDictVIt.c): decrement `end` and `next_index`
in lockstep, remove the entry at the decremented `next_index`, return its
former index. -/
def intdictviter_remove {α : Type} (iter : IntDictVIter) (dict : IntDict α) :
    Nat × IntDictVIter × IntDict α :=
  (iter.next_index - 1,
   ⟨iter.next_index - 1, iter.endi - 1⟩,
   intdict_remove_at dict (iter.next_index - 1))

/-- What remains of a list after the alternating removal pass that removes
the first visited element iff `rm`. -/
def altKeep {β : Type} : Bool → List β → List β
  | _, [] => []
  | true, _ :: xs => altKeep false xs
  | false, x :: xs => x :: altKeep true xs

/-- Drive the iterator across its range via `intdictviter_advance`,
removing every other yielded entry via `intdictviter_remove` (the first
one iff `rm`); returns the number of successful advances and the final
dictionary. -/
def runAlt {α : Type} (d : IntDict α) (it : IntDictVIter) (rm : Bool) :
    Nat × IntDict α :=
  if h : it.next_index < it.endi then
    if rm then
      ((runAlt (intdictviter_remove (intdictviter_advance it d).2 d).2.2
          (intdictviter_remove (intdictviter_advance it d).2 d).2.1 false).1 + 1,
       (runAlt (intdictviter_remove (intdictviter_advance it d).2 d).2.2
          (intdictviter_remove (intdictviter_advance it d).2 d).2.1 false).2)
    else
      ((runAlt d (intdictviter_advance it d).2 true).1 + 1,
       (runAlt d (intdictviter_advance it d).2 true).2)
  else (0, d)
termination_by it.endi - it.next_index
decreasing_by
  · simp only [intdictviter_advance, intdictviter_remove, if_pos h]
    omega
  · simp only [intdictviter_advance, if_pos h]
    omega

/-! ### The string dictionary (cache-provenance model, claim C6)

The string-keyed variant differs from the integer one in its comparator
(`stricmp`) and in holding a *defensive copy* of the searched key in a
dictionary-owned string buffer.  Keys are embedded as lists of byte values
(a C string's bytes up to the NUL terminator). -/

/-- C `toupper` in the C locale, on a byte value. -/
def c_toupper (c : Nat) : Nat := if 97 ≤ c ∧ c ≤ 122 then c - 32 else c

/-- `stricmp` (Stricmp.c): walk both strings, upper-casing each byte, while
the bytes are equal and the first string has not ended; return the
difference of the first differing (upper-cased) bytes. -/
def stricmp : List Nat → List Nat → Int
  | [], [] => 0
  | [], b :: _ => 0 - (c_toupper b : Int)
  | a :: _, [] => (c_toupper a : Int)
  | a :: as, b :: bs =>
    if c_toupper a ≠ 0 ∧ c_toupper a = c_toupper b then stricmp as bs
    else (c_toupper a : Int) - (c_toupper b : Int)

/-- Provenance-tracking model of `StrDict.sought_key`: a null pointer, a
pointer into the dictionary-owned string buffer (holding a defensive copy
of the characters), or the caller's raw key pointer. -/
inductive SoughtKey where
  | none
  | owned (s : List Nat)
  | borrowed (s : List Nat)
deriving DecidableEq

/-- `STRING_OR_NULL(dict->sought_key)`: the characters the sought key reads
as (a null pointer reads as the empty string). -/
def SoughtKey.chars : SoughtKey → List Nat
  | .none => []
  | .owned s => s
  | .borrowed s => s

/-- An entry of the string dictionary: `StrDictItem`. -/
structure StrDictItem (α : Type) where
  key : List Nat
  value : Option α
deriving DecidableEq

instance {α : Type} : Inhabited (StrDictItem α) := ⟨⟨[], none⟩⟩

/-- The `StrDict` structure (without the string buffer, whose only
observable effect is the provenance of `sought_key`). -/
structure StrDict (α : Type) where
  nalloc : Nat
  items : List (StrDictItem α)
  sought_key : SoughtKey
  candidate : Option Nat
deriving DecidableEq

/-- C `bsearch` driven by the string variant's `compare_key_n_item`
(`stricmp(STRING_OR_NULL(dict->sought_key), candidate->key)`), recording
the last probed slot. -/
def sbsearch_last_probe {α : Type} (l : List (StrDictItem α)) (key : List Nat) :
    Nat → Nat → Option Nat → Option Nat
  | lo, hi, last =>
    if h : lo < hi then
      if stricmp key (l.getD ((lo + hi) / 2) default).key < 0 then
        sbsearch_last_probe l key lo ((lo + hi) / 2) (some ((lo + hi) / 2))
      else if 0 < stricmp key (l.getD ((lo + hi) / 2) default).key then
        sbsearch_last_probe l key ((lo + hi) / 2 + 1) hi (some ((lo + hi) / 2))
      else some ((lo + hi) / 2)
    else last
termination_by lo hi _ => hi - lo
decreasing_by
  · have hmid : (lo + hi) / 2 < hi := Nat.div_lt_of_lt_mul (by omega)
    have hlo : lo ≤ (lo + hi) / 2 := Nat.le_div_iff_mul_le (by omega) |>.mpr (by omega)
    omega
  · have hlo : lo ≤ (lo + hi) / 2 := Nat.le_div_iff_mul_le (by omega) |>.mpr (by omega)
    omega

/-- Forward half of the local correction in `strdict_bisect_left`. -/
def sscanFwd {α : Type} (l : List (StrDictItem α)) (key : List Nat) (i : Nat) : Nat :=
  if h : i + 1 < l.length ∧ stricmp (l.getD (i + 1) default).key key < 0 then
    sscanFwd l key (i + 1)
  else i + 1
termination_by l.length - i
decreasing_by omega

/-- Backward half of the local correction in `strdict_bisect_left`. -/
def sscanBack {α : Type} (l : List (StrDictItem α)) (key : List Nat) (i : Nat) : Nat :=
  if h : 0 < i ∧ 0 ≤ stricmp (l.getD (i - 1) default).key key then
    sscanBack l key (i - 1)
  else i
termination_by i
decreasing_by omega

/-- The local correction of `strdict_bisect_left` from a candidate slot. -/
def scorrect {α : Type} (l : List (StrDictItem α)) (key : List Nat) (ci : Nat) : Nat :=
  if stricmp (l.getD ci default).key key < 0 then sscanFwd l key ci
  else sscanBack l key ci

/-- The cache consultation at the top of `strdict_bisect_left`: a cached
candidate whose sought key does not compare equal to `key` is discarded. -/
def strdict_bisect_discard {α : Type} (dict : StrDict α) (key : List Nat) :
    StrDict α :=
  if dict.candidate ≠ none ∧ stricmp dict.sought_key.chars key ≠ 0 then
    { dict with candidate := none }
  else dict

/-- The fresh-search step of `strdict_bisect_left`: truncate the scratch
buffer and append the key — on success the cache owns a defensive copy, on
allocation failure it holds the caller's raw pointer — then run the binary
search. -/
def strdict_bisect_search {α : Type} (dict : StrDict α) (key : List Nat)
    (allocOk : Bool) : StrDict α :=
  if dict.candidate = none then
    if allocOk then
      { dict with sought_key := .owned key,
                  candidate := sbsearch_last_probe dict.items key 0
                    dict.items.length none }
    else
      { dict with sought_key := .borrowed key,
                  candidate := sbsearch_last_probe dict.items key 0
                    dict.items.length none }
  else dict

/-- The cleanup at the end of `strdict_bisect_left`:
`if (dict->sought_key == key)` — pointer equality with the caller's raw
key, i.e. exactly the borrowed-provenance case — clear the whole cache. -/
def strdict_bisect_cleanup {α : Type} (dict : StrDict α) (key : List Nat) :
    StrDict α :=
  if dict.sought_key = .borrowed key then
    { dict with sought_key := .none, candidate := none }
  else dict

/-- `strdict_bisect_left` (string dictionary source): returns the computed
index and the updated dictionary state. -/
def strdict_bisect_left {α : Type} (dict : StrDict α) (key : List Nat)
    (allocOk : Bool) : Nat × StrDict α :=
  if dict.nalloc = 0 then (0, dict)
  else if dict.items.length = 0 then (0, dict)
  else
    match (strdict_bisect_search (strdict_bisect_discard dict key) key
        allocOk).candidate with
    | some ci =>
        (scorrect (strdict_bisect_search (strdict_bisect_discard dict key) key
            allocOk).items key ci,
         strdict_bisect_cleanup (strdict_bisect_search
            (strdict_bisect_discard dict key) key allocOk) key)
    | none =>
        (0, strdict_bisect_cleanup (strdict_bisect_search
            (strdict_bisect_discard dict key) key allocOk) key)

/-- One mutating dictionary operation (insert or positional remove), for
claim C3's sequences. -/
inductive MutOp (α : Type) where
  | ins (k : Int) (v : Option α) (allocOk : Bool)
  | rem (i : Nat)

/-- The state transition of one mutating operation. -/
def execMut {α : Type} (d : IntDict α) : MutOp α → IntDict α
  | .ins k v ok => (intdict_insert d k v ok).2.2
  | .rem i => intdict_remove_at d i

/-- Run a sequence of mutating operations left to right. -/
def execMuts {α : Type} : List (MutOp α) → IntDict α → IntDict α
  | [], d => d
  | op :: t, d => execMuts t (execMut d op)

/-- The capacities the growth policy can ever produce, starting from an
unallocated store: nothing, `ArrayInitSize` doubled some number of times
(staying below `2 ^ 63`), or the saturated maximum. -/
def ReachableCap (c : Nat) : Prop :=
  c = 0 ∨ (∃ k, 2 ≤ k ∧ k ≤ 63 ∧ c = 2 ^ k) ∨ c = SIZE_MAX

theorem rank_le_length {α : Type} (l : List (IntDictItem α)) (key : Int) :
    rank l key ≤ l.length :=
  List.countP_le_length _

theorem rankR_le_length {α : Type} (l : List (IntDictItem α)) (key : Int) :
    rankR l key ≤ l.length :=
  List.countP_le_length _

theorem rank_le_rankR {α : Type} (l : List (IntDictItem α)) (key : Int) :
    rank l key ≤ rankR l key := by
  induction l with
  | nil => simp [rank, rankR]
  | cons a t ih =>
    simp only [rank, rankR, List.countP_cons] at *
    by_cases h1 : a.key < key
    · have h2 : a.key ≤ key := le_of_lt h1
      simp [h1, h2]; omega
    · by_cases h2 : a.key ≤ key <;> simp [h1, h2] <;> omega

theorem rank_cons_of_not_lt {α : Type} {a : IntDictItem α} {t : List (IntDictItem α)}
    {key : Int} (hs : SortedItems (a :: t)) (h : ¬ a.key < key) :
    rank (a :: t) key = 0 := by
  rcases List.pairwise_cons.mp hs with ⟨hhead, _⟩
  have ht : List.countP (fun it => decide (it.key < key)) t = 0 :=
    List.countP_eq_zero.mpr (fun b hb => by
      have := hhead b hb; simp only [decide_eq_true_eq]; omega)
  simp [rank, List.countP_cons, ht, h]

theorem rankR_cons_of_not_le {α : Type} {a : IntDictItem α} {t : List (IntDictItem α)}
    {key : Int} (hs : SortedItems (a :: t)) (h : ¬ a.key ≤ key) :
    rankR (a :: t) key = 0 := by
  rcases List.pairwise_cons.mp hs with ⟨hhead, _⟩
  have ht : List.countP (fun it => decide (it.key ≤ key)) t = 0 :=
    List.countP_eq_zero.mpr (fun b hb => by
      have := hhead b hb; simp only [decide_eq_true_eq]; omega)
  simp [rankR, List.countP_cons, ht, h]

/-- Entries strictly below the rank have keys strictly below the key. -/
theorem key_lt_of_lt_rank {α : Type} {l : List (IntDictItem α)} {key : Int}
    (hs : SortedItems l) : ∀ {j : Nat}, j < rank l key →
    (l.getD j default).key < key := by
  induction l with
  | nil => intro j h; simp [rank] at h
  | cons a t ih =>
    intro j h
    by_cases ha : a.key < key
    · cases j with
      | zero => simpa using ha
      | succ j' =>
        have ht : SortedItems t := (List.pairwise_cons.mp hs).2
        have : rank (a :: t) key = rank t key + 1 := by
          simp [rank, List.countP_cons, ha]
        rw [this] at h
        simpa using ih ht (by omega)
    · rw [rank_cons_of_not_lt hs ha] at h; omega

/-- Entries at or beyond the rank have keys at or above the key. -/
theorem le_key_of_rank_le {α : Type} {l : List (IntDictItem α)} {key : Int}
    (hs : SortedItems l) : ∀ {j : Nat}, rank l key ≤ j → j < l.length →
    key ≤ (l.getD j default).key := by
  induction l with
  | nil => intro j _ h; simp at h
  | cons a t ih =>
    intro j hr hj
    have ht : SortedItems t := (List.pairwise_cons.mp hs).2
    by_cases ha : a.key < key
    · have : rank (a :: t) key = rank t key + 1 := by
        simp [rank, List.countP_cons, ha]
      rw [this] at hr
      cases j with
      | zero => omega
      | succ j' =>
        simpa using ih ht (by omega) (by simpa using hj)
    · cases j with
      | zero => simpa using not_lt.mp ha
      | succ j' =>
        have h0 : rank t key = 0 := by
          have h1 := rank_cons_of_not_lt hs ha
          simp only [rank, List.countP_cons] at h1 ⊢
          omega
        simpa using ih ht (by omega) (by simpa using hj)

/-- Entries strictly below `rankR` have keys at most the key. -/
theorem key_le_of_lt_rankR {α : Type} {l : List (IntDictItem α)} {key : Int}
    (hs : SortedItems l) : ∀ {j : Nat}, j < rankR l key →
    (l.getD j default).key ≤ key := by
  induction l with
  | nil => intro j h; simp [rankR] at h
  | cons a t ih =>
    intro j h
    by_cases ha : a.key ≤ key
    · cases j with
      | zero => simpa using ha
      | succ j' =>
        have ht : SortedItems t := (List.pairwise_cons.mp hs).2
        have : rankR (a :: t) key = rankR t key + 1 := by
          simp [rankR, List.countP_cons, ha]
        rw [this] at h
        simpa using ih ht (by omega)
    · rw [rankR_cons_of_not_le hs ha] at h; omega

/-- Entries at or beyond `rankR` have keys strictly above the key. -/
theorem lt_key_of_rankR_le {α : Type} {l : List (IntDictItem α)} {key : Int}
    (hs : SortedItems l) : ∀ {j : Nat}, rankR l key ≤ j → j < l.length →
    key < (l.getD j default).key := by
  induction l with
  | nil => intro j _ h; simp at h
  | cons a t ih =>
    intro j hr hj
    have ht : SortedItems t := (List.pairwise_cons.mp hs).2
    by_cases ha : a.key ≤ key
    · have : rankR (a :: t) key = rankR t key + 1 := by
        simp [rankR, List.countP_cons, ha]
      rw [this] at hr
      cases j with
      | zero => omega
      | succ j' =>
        simpa using ih ht (by omega) (by simpa using hj)
    · cases j with
      | zero => simpa using not_le.mp ha
      | succ j' =>
        have h0 : rankR t key = 0 := by
          have h1 := rankR_cons_of_not_le hs ha
          simp only [rankR, List.countP_cons] at h1 ⊢
          omega
        simpa using ih ht (by omega) (by simpa using hj)

/-! ### The local linear correction resolves the exact boundary -/

theorem scanFwd_eq_rank_aux {α : Type} {l : List (IntDictItem α)} {key : Int}
    (hs : SortedItems l) :
    ∀ n i, l.length - i ≤ n → i < l.length → (l.getD i default).key < key →
      scanFwd l key i = rank l key := by
  intro n
  induction n with
  | zero => intro i hn hi _; omega
  | succ n ih =>
    intro i hn hi hk
    rw [scanFwd]
    split
    · next h => exact ih (i + 1) (by omega) h.1 h.2
    · next h =>
      have h1 : i < rank l key := by
        by_contra hcon
        push_neg at hcon
        exact absurd (le_key_of_rank_le hs hcon hi) (not_le.mpr hk)
      have h2 : rank l key ≤ i + 1 := by
        by_contra hcon
        push_neg at hcon
        have hlen : i + 1 < l.length :=
          lt_of_lt_of_le hcon (rank_le_length l key)
        exact h ⟨hlen, key_lt_of_lt_rank hs hcon⟩
      omega

/-- Starting anywhere below the boundary, the forward scan of
`intdict_bisect_left` ends exactly at the boundary. -/
theorem scanFwd_eq_rank {α : Type} {l : List (IntDictItem α)} {key : Int} {i : Nat}
    (hs : SortedItems l) (hi : i < l.length)
    (hk : (l.getD i default).key < key) : scanFwd l key i = rank l key :=
  scanFwd_eq_rank_aux hs l.length i (by omega) hi hk

/-- Starting anywhere at or beyond the boundary, the backward scan of
`intdict_bisect_left` ends exactly at the boundary. -/
theorem scanBack_eq_rank {α : Type} {l : List (IntDictItem α)} {key : Int}
    (hs : SortedItems l) :
    ∀ i, i < l.length → key ≤ (l.getD i default).key →
      scanBack l key i = rank l key := by
  intro i
  induction i with
  | zero =>
    intro hi hk
    rw [scanBack]
    rw [dif_neg (fun hc => absurd hc.1 (lt_irrefl 0))]
    have h2 : rank l key ≤ 0 := by
      by_contra hcon
      push_neg at hcon
      exact absurd (key_lt_of_lt_rank hs hcon) (not_lt.mpr hk)
    omega
  | succ i ih =>
    intro hi hk
    rw [scanBack]
    split
    · next h =>
      have h2 := h.2
      simp only [Nat.add_sub_cancel] at h2 ⊢
      exact ih (by omega) h2
    · next h =>
      have hup : rank l key ≤ i + 1 := by
        by_contra hcon
        push_neg at hcon
        exact absurd (key_lt_of_lt_rank hs hcon) (not_lt.mpr hk)
      have hdown : ¬ key ≤ (l.getD i default).key := by
        intro hle
        exact h ⟨by omega, by simpa using hle⟩
      have h1 : i < rank l key := by
        by_contra hcon
        push_neg at hcon
        exact hdown (le_key_of_rank_le hs hcon (by omega))
      omega

/-- From any in-range slot, the local linear correction of
`intdict_bisect_left` computes the exact left boundary. -/
theorem correct_eq_rank {α : Type} {l : List (IntDictItem α)} {key : Int} {ci : Nat}
    (hs : SortedItems l) (hci : ci < l.length) :
    correct l key ci = rank l key := by
  unfold correct
  split
  · next h => exact scanFwd_eq_rank hs hci h
  · next h => exact scanBack_eq_rank hs ci hci (not_lt.mp h)

theorem scanRightLE_eq_rankR_aux {α : Type} {l : List (IntDictItem α)} {key : Int}
    (hs : SortedItems l) :
    ∀ n i, l.length - i ≤ n → i ≤ rankR l key →
      scanRightLE l key i = rankR l key := by
  intro n
  induction n with
  | zero =>
    intro i hn hi
    rw [scanRightLE]
    rw [dif_neg (fun hc => by
      have := rankR_le_length l key
      omega)]
    have := rankR_le_length l key
    omega
  | succ n ih =>
    intro i hn hi
    rw [scanRightLE]
    split
    · next h =>
      have h1 : i < rankR l key := by
        by_contra hcon
        push_neg at hcon
        exact absurd h.2 (not_le.mpr (lt_key_of_rankR_le hs hcon h.1))
      exact ih (i + 1) (by omega) (by omega)
    · next h =>
      have h2 : rankR l key ≤ i := by
        by_contra hcon
        push_neg at hcon
        have hlen : i < l.length := lt_of_lt_of_le hcon (rankR_le_length l key)
        exact h ⟨hlen, key_le_of_lt_rankR hs hcon⟩
      omega

/-- The forward scan of `intdict_bisect_right`, started at or below the right
boundary, ends exactly at the right boundary. -/
theorem scanRightLE_eq_rankR {α : Type} {l : List (IntDictItem α)} {key : Int}
    {i : Nat} (hs : SortedItems l) (hi : i ≤ rankR l key) :
    scanRightLE l key i = rankR l key :=
  scanRightLE_eq_rankR_aux hs l.length i (by omega) hi

/-- The binary search always reports some probed slot, and that slot is in
range, provided the searched range is non-empty (or a valid fallback was
supplied). -/
theorem bsearch_last_probe_some {α : Type} (l : List (IntDictItem α)) (key : Int) :
    ∀ n lo hi last, hi - lo ≤ n → hi ≤ l.length →
      (lo < hi ∨ ∃ m, last = some m ∧ m < l.length) →
      ∃ m, bsearch_last_probe l key lo hi last = some m ∧ m < l.length := by
  intro n
  induction n with
  | zero =>
    intro lo hi last hn hhi hd
    rcases hd with h | h
    · omega
    · rw [bsearch_last_probe, dif_neg (by omega)]
      exact h
  | succ n ih =>
    intro lo hi last hn hhi hd
    by_cases hlt : lo < hi
    · rw [bsearch_last_probe, dif_pos hlt]
      have hmid : (lo + hi) / 2 < hi := Nat.div_lt_of_lt_mul (by omega)
      have hlo : lo ≤ (lo + hi) / 2 :=
        Nat.le_div_iff_mul_le (by omega) |>.mpr (by omega)
      have hmlen : (lo + hi) / 2 < l.length := by omega
      split
      · exact ih lo ((lo + hi) / 2) (some ((lo + hi) / 2)) (by omega) (by omega)
          (Or.inr ⟨(lo + hi) / 2, rfl, hmlen⟩)
      · split
        · exact ih ((lo + hi) / 2 + 1) hi (some ((lo + hi) / 2)) (by omega) hhi
            (Or.inr ⟨(lo + hi) / 2, rfl, hmlen⟩)
        · exact ⟨(lo + hi) / 2, rfl, hmlen⟩
    · rcases hd with h | h
      · omega
      · rw [bsearch_last_probe, dif_neg hlt]
        exact h

/-- Everything `intdict_bisect_left` guarantees at once: the returned index
is the rank of the key, the items and capacity are untouched, the updated
candidate is in range, and on a non-empty dictionary the cache records the
sought key together with a candidate slot from which the local correction
reproduces the returned index. -/
theorem bisect_left_spec {α : Type} (d : IntDict α) (key : Int) (hinv : Inv d) :
    (intdict_bisect_left d key).1 = rank d.items key ∧
    (intdict_bisect_left d key).2.items = d.items ∧
    (intdict_bisect_left d key).2.nalloc = d.nalloc ∧
    (∀ i, (intdict_bisect_left d key).2.candidate = some i →
      i < d.items.length) ∧
    (0 < d.items.length → d.nalloc ≠ 0 →
      (intdict_bisect_left d key).2.sought_key = key ∧
      ∃ ci, (intdict_bisect_left d key).2.candidate = some ci ∧
        ci < d.items.length ∧
        correct d.items key ci = (intdict_bisect_left d key).1) := by
  obtain ⟨hs, hlen, hcap, hcand⟩ := hinv
  by_cases h0 : d.nalloc = 0
  · have hnil : d.items = [] := List.length_eq_zero.mp (by omega)
    refine ⟨?_, ?_, ?_, ?_, ?_⟩ <;>
      simp [intdict_bisect_left, h0, hnil, rank]
    intro i hi
    have h2 := hcand i hi
    rw [hnil] at h2
    simp at h2
  · by_cases h1 : d.items.length = 0
    · have hnil : d.items = [] := List.length_eq_zero.mp h1
      refine ⟨?_, ?_, ?_, ?_, ?_⟩ <;>
        simp [intdict_bisect_left, h0, hnil, rank]
      intro i hi
      have h2 := hcand i hi
      rw [hnil] at h2
      simp at h2
    · rcases hc : d.candidate with _ | i
      · -- no cached candidate: a fresh binary search runs
        obtain ⟨m, hm, hmlt⟩ := bsearch_last_probe_some d.items key
          d.items.length 0 d.items.length none (by omega) (le_refl _)
          (Or.inl (by omega))
        have hA : bisect_discard d key = d := by
          simp [bisect_discard, hc]
        have hB : bisect_search (bisect_discard d key) key =
            ⟨d.nalloc, d.items, key, some m⟩ := by
          rw [hA]
          simp [bisect_search, hc, hm]
        have heq : intdict_bisect_left d key =
            (correct d.items key m, ⟨d.nalloc, d.items, key, some m⟩) := by
          unfold intdict_bisect_left
          rw [if_neg h0, if_neg h1, hB]
        rw [heq]
        refine ⟨correct_eq_rank hs hmlt, rfl, rfl, ?_, ?_⟩
        · intro j hj
          have hmj : m = j := by simpa using hj
          omega
        · intro _ _
          exact ⟨rfl, m, rfl, hmlt, rfl⟩
      · by_cases hk : d.sought_key = key
        · -- cache hit: candidate reused without a search
          have hA : bisect_discard d key = d := by
            simp [bisect_discard, hc, hk]
          have hB : bisect_search (bisect_discard d key) key = d := by
            rw [hA]
            simp [bisect_search, hc]
          have heq : intdict_bisect_left d key =
              (correct d.items key i, d) := by
            unfold intdict_bisect_left
            rw [if_neg h0, if_neg h1, hB, hc]
          have hilt : i < d.items.length := hcand i hc
          rw [heq]
          refine ⟨correct_eq_rank hs hilt, rfl, rfl, hcand, ?_⟩
          intro _ _
          exact ⟨hk, i, hc, hilt, rfl⟩
        · -- cached candidate for a different key: discarded, fresh search
          obtain ⟨m, hm, hmlt⟩ := bsearch_last_probe_some d.items key
            d.items.length 0 d.items.length none (by omega) (le_refl _)
            (Or.inl (by omega))
          have hA : bisect_discard d key = ⟨d.nalloc, d.items, d.sought_key, none⟩ := by
            simp [bisect_discard, hc, hk]
          have hB : bisect_search (bisect_discard d key) key =
              ⟨d.nalloc, d.items, key, some m⟩ := by
            rw [hA]
            simp [bisect_search, hm]
          have heq : intdict_bisect_left d key =
              (correct d.items key m, ⟨d.nalloc, d.items, key, some m⟩) := by
            unfold intdict_bisect_left
            rw [if_neg h0, if_neg h1, hB]
          rw [heq]
          refine ⟨correct_eq_rank hs hmlt, rfl, rfl, ?_, ?_⟩
          · intro j hj
            have hmj : m = j := by simpa using hj
            omega
          · intro _ _
            exact ⟨rfl, m, rfl, hmlt, rfl⟩

theorem bisect_left_rank {α : Type} (d : IntDict α) (key : Int) (h : Inv d) :
    (intdict_bisect_left d key).1 = rank d.items key :=
  (bisect_left_spec d key h).1

theorem bisect_left_items {α : Type} (d : IntDict α) (key : Int) (h : Inv d) :
    (intdict_bisect_left d key).2.items = d.items :=
  (bisect_left_spec d key h).2.1

theorem bisect_left_nalloc {α : Type} (d : IntDict α) (key : Int) (h : Inv d) :
    (intdict_bisect_left d key).2.nalloc = d.nalloc :=
  (bisect_left_spec d key h).2.2.1

theorem bisect_left_inv {α : Type} (d : IntDict α) (key : Int) (h : Inv d) :
    Inv (intdict_bisect_left d key).2 := by
  refine ⟨?_, ?_, ?_, ?_⟩
  · rw [bisect_left_items d key h]; exact h.1
  · rw [bisect_left_items d key h, bisect_left_nalloc d key h]; exact h.2.1
  · rw [bisect_left_nalloc d key h]; exact h.2.2.1
  · intro i hi
    rw [bisect_left_items d key h]
    exact (bisect_left_spec d key h).2.2.2.1 i hi

theorem bisect_right_rankR {α : Type} (d : IntDict α) (key : Int) (h : Inv d) :
    (intdict_bisect_right d key).1 = rankR d.items key := by
  by_cases h0 : d.nalloc = 0
  · have hnil : d.items = [] := List.length_eq_zero.mp (by
      have := h.2.1; omega)
    simp [intdict_bisect_right, h0, hnil, rankR]
  · have hs := h.1
    simp only [intdict_bisect_right, h0, if_neg, ite_false, reduceIte]
    rw [bisect_left_items d key h, bisect_left_rank d key h]
    exact scanRightLE_eq_rankR hs (rank_le_rankR d.items key)

theorem bisect_right_items {α : Type} (d : IntDict α) (key : Int) (h : Inv d) :
    (intdict_bisect_right d key).2.items = d.items := by
  by_cases h0 : d.nalloc = 0
  · simp [intdict_bisect_right, h0]
  · simp only [intdict_bisect_right, h0, if_neg, ite_false, reduceIte]
    exact bisect_left_items d key h

theorem bisect_right_inv {α : Type} (d : IntDict α) (key : Int) (h : Inv d) :
    Inv (intdict_bisect_right d key).2 := by
  by_cases h0 : d.nalloc = 0
  · simpa [intdict_bisect_right, h0] using h
  · simp only [intdict_bisect_right, h0, if_neg, ite_false, reduceIte]
    exact bisect_left_inv d key h

theorem find_inv {α : Type} (d : IntDict α) (key : Int) (h : Inv d) :
    Inv (intdict_find d key).2.2 := by
  have := bisect_left_inv d key h
  unfold intdict_find
  split <;> simpa

/-! ### Sorted insertion and removal -/

/-- Inserting an item at its rank keeps the keys non-decreasing. -/
theorem sorted_insertIdx_rank {α : Type} {l : List (IntDictItem α)} {key : Int}
    (hs : SortedItems l) (v : Option α) :
    SortedItems (l.insertIdx (rank l key) ⟨key, v⟩) := by
  induction l with
  | nil => simp [rank, SortedItems, List.insertIdx]
  | cons a t ih =>
    obtain ⟨hhead, ht⟩ := List.pairwise_cons.mp hs
    by_cases ha : a.key < key
    · have hr : rank (a :: t) key = rank t key + 1 := by
        simp [rank, List.countP_cons, ha]
      rw [hr, List.insertIdx_succ_cons]
      refine List.pairwise_cons.mpr ⟨?_, ih ht⟩
      intro b hb
      rcases (List.mem_insertIdx (rank_le_length t key)).mp hb with hb | hb
      · rw [hb]; exact le_of_lt ha
      · exact hhead b hb
    · rw [rank_cons_of_not_lt hs ha, List.insertIdx_zero]
      refine List.pairwise_cons.mpr ⟨?_, hs⟩
      intro b hb
      rcases List.mem_cons.mp hb with hb | hb
      · rw [hb]; exact not_lt.mp ha
      · exact le_trans (not_lt.mp ha) (hhead b hb)

/-- `intdict_remove_at` preserves the invariant. -/
theorem remove_at_inv {α : Type} (d : IntDict α) (index : Nat) (h : Inv d) :
    Inv (intdict_remove_at d index) := by
  obtain ⟨hs, hlen, hcap, hcand⟩ := h
  unfold intdict_remove_at
  split
  · exact ⟨hs, hlen, hcap, hcand⟩
  · refine ⟨?_, ?_, hcap, ?_⟩
    · exact List.Pairwise.sublist (List.eraseIdx_sublist d.items index) hs
    · have := List.length_eraseIdx_le d.items index
      simpa using le_trans this hlen
    · intro i hi
      simp at hi

theorem SIZE_MAX_eq : SIZE_MAX = 18446744073709551615 := by
  norm_num [SIZE_MAX]

theorem SIZE_MAX_div : SIZE_MAX / ArrayGrowthFactor = 9223372036854775807 := by
  norm_num [SIZE_MAX, ArrayGrowthFactor]

/-- The grown capacity always has room for one more item and stays
representable, provided the current capacity is full and representable. -/
theorem grow_size_bounds {nalloc : Nat} (hcap : nalloc ≤ SIZE_MAX)
    (hmax : nalloc ≠ SIZE_MAX) :
    nalloc + 1 ≤ grow_size nalloc ∧ grow_size nalloc ≤ SIZE_MAX := by
  unfold grow_size
  rw [SIZE_MAX_eq] at hcap hmax
  rw [SIZE_MAX_div, SIZE_MAX_eq]
  simp only [ArrayGrowthFactor, ArrayInitSize]
  split
  · split <;> omega
  · omega

/-- `intdict_insert` preserves the invariant. -/
theorem insert_inv {α : Type} (d : IntDict α) (key : Int) (v : Option α)
    (ok : Bool) (h : Inv d) : Inv (intdict_insert d key v ok).2.2 := by
  have hinv2 := bisect_left_inv d key h
  have hitems := bisect_left_items d key h
  have hnal := bisect_left_nalloc d key h
  have hrank := bisect_left_rank d key h
  obtain ⟨hs2, hlen2, hcap2, hcand2⟩ := hinv2
  unfold intdict_insert insert_after_bisect
  split
  · -- full: growth needed
    next hfull =>
    split
    · exact ⟨hs2, hlen2, hcap2, hcand2⟩
    · next hmax =>
      split
      · -- allocation succeeded
        obtain ⟨hg1, hg2⟩ := grow_size_bounds hcap2 hmax
        refine ⟨?_, ?_, ?_, ?_⟩
        · show SortedItems ((intdict_bisect_left d key).2.items.insertIdx
            (intdict_bisect_left d key).1 ⟨key, v⟩)
          rw [hitems, hrank]
          exact sorted_insertIdx_rank h.1 v
        · show ((intdict_bisect_left d key).2.items.insertIdx
            (intdict_bisect_left d key).1 ⟨key, v⟩).length ≤
              grow_size (intdict_bisect_left d key).2.nalloc
          rw [hitems, hrank,
            List.length_insertIdx _ _ (rank_le_length d.items key)]
          rw [hitems] at hfull
          omega
        · exact hg2
        · intro i hi
          simp at hi
      · exact ⟨hs2, hlen2, hcap2, hcand2⟩
  · -- room available: plain insert
    next hroom =>
    refine ⟨?_, ?_, hcap2, ?_⟩
    · show SortedItems ((intdict_bisect_left d key).2.items.insertIdx
        (intdict_bisect_left d key).1 ⟨key, v⟩)
      rw [hitems, hrank]
      exact sorted_insertIdx_rank h.1 v
    · show ((intdict_bisect_left d key).2.items.insertIdx
        (intdict_bisect_left d key).1 ⟨key, v⟩).length ≤
          (intdict_bisect_left d key).2.nalloc
      rw [hitems, hrank,
        List.length_insertIdx _ _ (rank_le_length d.items key)]
      rw [hitems] at hroom
      rw [hitems] at hlen2
      omega
    · intro i hi
      simp at hi

theorem inv_init {α : Type} : Inv (intdict_init (α := α)) := by
  refine ⟨?_, ?_, ?_, ?_⟩ <;> simp [intdict_init, SortedItems, SIZE_MAX]

theorem exec_inv {α : Type} (d : IntDict α) (op : DictOp α) (h : Inv d) :
    Inv (execOp d op) := by
  cases op with
  | ins k v ok => exact insert_inv d k v ok h
  | rem i => exact remove_at_inv d i h
  | bisectL k => exact bisect_left_inv d k h
  | bisectR k => exact bisect_right_inv d k h
  | findOp k => exact find_inv d k h

/-- Every reachable state satisfies the invariant: the ordering invariant
holds between any two public calls. -/
theorem reachable_inv {α : Type} {d : IntDict α} (h : Reachable d) : Inv d := by
  induction h with
  | init => exact inv_init
  | step d op _ ih => exact exec_inv d op ih

theorem bisect_left_nocache_eq_rank {α : Type} (l : List (IntDictItem α))
    (key : Int) (hs : SortedItems l) : bisect_left_nocache l key = rank l key := by
  unfold bisect_left_nocache
  by_cases h0 : l.length = 0
  · have : l = [] := List.length_eq_zero.mp h0
    simp [h0, this, rank]
  · obtain ⟨m, hm, hmlt⟩ := bsearch_last_probe_some l key l.length 0 l.length
      none (by omega) (le_refl _) (Or.inl (by omega))
    rw [if_neg h0, hm]
    exact correct_eq_rank hs hmlt

/-! ### Iterating while removing every other element -/

theorem eraseIdx_append_cons {β : Type} (pre : List β) (x : β) (xs : List β) :
    (pre ++ x :: xs).eraseIdx pre.length = pre ++ xs := by
  induction pre with
  | nil => simp [List.eraseIdx]
  | cons a t ih => simpa [List.eraseIdx] using ih

/-- The alternating removal pass, started anywhere, visits every entry of
the remaining range once and leaves exactly the entries `altKeep` keeps. -/
theorem runAlt_spec {α : Type} :
    ∀ (rest pre : List (IntDictItem α)) (d : IntDict α) (rm : Bool),
      d.nalloc ≠ 0 → d.items = pre ++ rest →
      (runAlt d ⟨pre.length, pre.length + rest.length⟩ rm).1 = rest.length ∧
      (runAlt d ⟨pre.length, pre.length + rest.length⟩ rm).2.items =
        pre ++ altKeep rm rest ∧
      (runAlt d ⟨pre.length, pre.length + rest.length⟩ rm).2.nalloc = d.nalloc := by
  intro rest
  induction rest with
  | nil =>
    intro pre d rm hna hitems
    rw [runAlt]
    rw [dif_neg (by simp)]
    simp [hitems, altKeep]
  | cons x xs ih =>
    intro pre d rm hna hitems
    have hlt : pre.length < pre.length + (x :: xs).length := by simp
    rw [runAlt, dif_pos hlt]
    have hadv : (intdictviter_advance ⟨pre.length, pre.length + (x :: xs).length⟩ d).2 =
        ⟨pre.length + 1, pre.length + (x :: xs).length⟩ := by
      simp [intdictviter_advance, hlt]
    cases rm with
    | true =>
      simp only [if_pos]
      rw [hadv]
      have hrem : (intdictviter_remove
          ⟨pre.length + 1, pre.length + (x :: xs).length⟩ d) =
          (pre.length, ⟨pre.length, pre.length + (x :: xs).length - 1⟩,
           intdict_remove_at d pre.length) := by
        simp [intdictviter_remove]
      rw [hrem]
      have hd2 : (intdict_remove_at d pre.length).items = pre ++ xs ∧
          (intdict_remove_at d pre.length).nalloc = d.nalloc := by
        unfold intdict_remove_at
        rw [if_neg hna]
        constructor
        · show (d.items.eraseIdx pre.length) = pre ++ xs
          rw [hitems]
          exact eraseIdx_append_cons pre x xs
        · rfl
      have hend : pre.length + (x :: xs).length - 1 = pre.length + xs.length := by
        simp
      have := ih pre (intdict_remove_at d pre.length) false
        (by rw [hd2.2]; exact hna) hd2.1
      simp only [] at this ⊢
      rw [hend]
      refine ⟨?_, ?_, ?_⟩
      · rw [this.1]; simp
      · rw [this.2.1]; simp [altKeep]
      · rw [this.2.2, hd2.2]
    | false =>
      simp only [Bool.false_eq_true, if_false]
      rw [hadv]
      have hpre' : (pre ++ [x]).length = pre.length + 1 := by simp
      have hitems' : d.items = (pre ++ [x]) ++ xs := by
        rw [hitems]; simp
      have hend : pre.length + (x :: xs).length = pre.length + 1 + xs.length := by
        simp only [List.length_cons]; omega
      have := ih (pre ++ [x]) d true hna hitems'
      rw [hpre'] at this
      rw [hend]
      refine ⟨?_, ?_, ?_⟩
      · rw [this.1]; simp
      · rw [this.2.1]; simp [altKeep]
      · exact this.2.2

/-- The state `strdict_bisect_left` leaves behind, independent of which
index it computes. -/
theorem strdict_bisect_left_state {α : Type} (d : StrDict α) (key : List Nat)
    (ok : Bool) :
    (strdict_bisect_left d key ok).2 =
      if d.nalloc = 0 then d
      else if d.items.length = 0 then d
      else strdict_bisect_cleanup
        (strdict_bisect_search (strdict_bisect_discard d key) key ok) key := by
  unfold strdict_bisect_left
  by_cases h0 : d.nalloc = 0
  · simp [h0]
  · by_cases h1 : d.items.length = 0
    · simp [h0, h1]
    · rw [if_neg h0, if_neg h1, if_neg h0, if_neg h1]
      rcases hm : (strdict_bisect_search (strdict_bisect_discard d key) key
          ok).candidate with _ | ci <;> simp only [hm]

/-! ### Supporting lemmas for the claims -/

/-- Adjacent entries of a sorted item list are ordered. -/
theorem sorted_adjacent {α : Type} {l : List (IntDictItem α)} (hs : SortedItems l)
    {i : Nat} (h : i + 1 < l.length) :
    (l.getD i default).key ≤ (l.getD (i + 1) default).key := by
  have h1 : i < l.length := by omega
  rw [List.getD_eq_getElem l default h1, List.getD_eq_getElem l default h]
  exact List.pairwise_iff_getElem.mp hs i (i + 1) h1 h (by omega)

theorem execMut_inv {α : Type} (d : IntDict α) (op : MutOp α) (h : Inv d) :
    Inv (execMut d op) := by
  cases op with
  | ins k v ok => exact insert_inv d k v ok h
  | rem i => exact remove_at_inv d i h

theorem execMuts_inv_step {α : Type} (ops : List (MutOp α)) :
    ∀ d : IntDict α, Inv d → Inv (execMuts ops d) := by
  induction ops with
  | nil => intro d h; exact h
  | cons op t ih => intro d h; exact ih _ (execMut_inv d op h)

/-! ### The claims -/

/-- C1: for every valid dictionary state (entries sorted under the key
ordering), `bisect_left(k) <= bisect_right(k)`; `bisect_left(k)` equals the
number of entries with key strictly less than `k` and is the first position
whose entry is `>= k` (or `count` if none); `bisect_right(k)` is the first
position whose entry is `> k` (or `count`). -/
theorem claim_C1 {α : Type} (d : IntDict α) (k : Int) (h : Inv d) :
    (intdict_bisect_left d k).1 ≤ (intdict_bisect_right d k).1 ∧
    (intdict_bisect_left d k).1 = (d.items.countP fun it => it.key < k) ∧
    (∀ j, j < (intdict_bisect_left d k).1 →
      (d.items.getD j default).key < k) ∧
    ((intdict_bisect_left d k).1 < d.items.length →
      k ≤ (d.items.getD (intdict_bisect_left d k).1 default).key) ∧
    (intdict_bisect_left d k).1 ≤ d.items.length ∧
    (∀ j, j < (intdict_bisect_right d k).1 →
      (d.items.getD j default).key ≤ k) ∧
    ((intdict_bisect_right d k).1 < d.items.length →
      k < (d.items.getD (intdict_bisect_right d k).1 default).key) ∧
    (intdict_bisect_right d k).1 ≤ d.items.length := by
  have hs := h.1
  rw [bisect_left_rank d k h, bisect_right_rankR d k h]
  refine ⟨rank_le_rankR _ _, rfl, ?_, ?_, rank_le_length _ _, ?_, ?_,
    rankR_le_length _ _⟩
  · intro j hj; exact key_lt_of_lt_rank hs hj
  · intro hlt; exact le_key_of_rank_le hs (le_refl _) hlt
  · intro j hj; exact key_le_of_lt_rankR hs hj
  · intro hlt; exact lt_key_of_rankR_le hs (le_refl _) hlt

/-- C3: after any sequence of insert and remove operations starting from an
initialised (empty) dictionary, the entry array is non-decreasing under the
key ordering — for all `i` with `i + 1 < count`, `entries[i] <= entries[i+1]`
— and `count <= capacity` holds at every observable point between calls. -/
theorem claim_C3 {α : Type} (ops : List (MutOp α)) :
    (∀ i, i + 1 < (execMuts ops (intdict_init (α := α))).items.length →
      ((execMuts ops (intdict_init (α := α))).items.getD i default).key ≤
        ((execMuts ops (intdict_init (α := α))).items.getD (i + 1) default).key) ∧
    (execMuts ops (intdict_init (α := α))).items.length ≤
      (execMuts ops (intdict_init (α := α))).nalloc := by
  have h := execMuts_inv_step ops (intdict_init (α := α)) inv_init
  exact ⟨fun i hi => sorted_adjacent h.1 hi, h.2.1⟩

theorem claim_C1_witness :
    Inv (⟨4, [⟨1, some 10⟩, ⟨3, none⟩, ⟨3, some 11⟩, ⟨7, some 12⟩], 0, none⟩ : IntDict Nat) ∧
    (intdict_bisect_left (⟨4, [⟨1, some 10⟩, ⟨3, none⟩, ⟨3, some 11⟩, ⟨7, some 12⟩], 0, none⟩ : IntDict Nat) 3).1 ≤
      (intdict_bisect_right (⟨4, [⟨1, some 10⟩, ⟨3, none⟩, ⟨3, some 11⟩, ⟨7, some 12⟩], 0, none⟩ : IntDict Nat) 3).1 := by
  have hInv : Inv (⟨4, [⟨1, some 10⟩, ⟨3, none⟩, ⟨3, some 11⟩, ⟨7, some 12⟩], 0, none⟩ : IntDict Nat) :=
    ⟨by unfold SortedItems; decide, by decide, by decide, fun i hi => nomatch hi⟩
  exact ⟨hInv, (claim_C1 _ 3 hInv).1⟩

theorem claim_C3_witness :
    0 + 1 < (execMuts [MutOp.ins 5 (some 0) true, MutOp.ins 3 (some 1) true] (intdict_init (α := Nat))).items.length ∧
    ((execMuts [MutOp.ins 5 (some 0) true, MutOp.ins 3 (some 1) true] (intdict_init (α := Nat))).items.getD 0 default).key ≤
      ((execMuts [MutOp.ins 5 (some 0) true, MutOp.ins 3 (some 1) true] (intdict_init (α := Nat))).items.getD 1 default).key ∧
    (execMuts [MutOp.ins 5 (some 0) true, MutOp.ins 3 (some 1) true] (intdict_init (α := Nat))).items.length ≤
      (execMuts [MutOp.ins 5 (some 0) true, MutOp.ins 3 (some 1) true] (intdict_init (α := Nat))).nalloc := by
  have hl : 0 + 1 < (execMuts [MutOp.ins 5 (some 0) true, MutOp.ins 3 (some 1) true] (intdict_init (α := Nat))).items.length := by
    simp [execMuts, execMut, intdict_insert, insert_after_bisect, intdict_bisect_left,
      bisect_discard, bisect_search, bsearch_last_probe, correct, scanBack, scanFwd,
      grow_size, intdict_init, SIZE_MAX, ArrayGrowthFactor, ArrayInitSize]
  exact ⟨hl, (claim_C3 _).1 0 hl, (claim_C3 _).2⟩

theorem bisect_discard_state {α : Type} (d : IntDict α) (k : Int) :
    (bisect_discard d k).items = d.items ∧ (bisect_discard d k).nalloc = d.nalloc := by
  unfold bisect_discard; split <;> exact ⟨rfl, rfl⟩

theorem bisect_search_state {α : Type} (d : IntDict α) (k : Int) :
    (bisect_search d k).items = d.items ∧ (bisect_search d k).nalloc = d.nalloc := by
  unfold bisect_search; split <;> exact ⟨rfl, rfl⟩

/-- `intdict_bisect_left` never changes the entries or the capacity, on any
state whatsoever. -/
theorem bisect_left_state_any {α : Type} (d : IntDict α) (k : Int) :
    (intdict_bisect_left d k).2.items = d.items ∧
    (intdict_bisect_left d k).2.nalloc = d.nalloc := by
  unfold intdict_bisect_left
  by_cases h0 : d.nalloc = 0
  · simp [h0]
  · by_cases h1 : d.items.length = 0
    · simp [h0, h1]
    · rw [if_neg h0, if_neg h1]
      rcases hm : (bisect_search (bisect_discard d k) k).candidate with _ | ci <;>
        simp only [hm] <;>
        exact ⟨((bisect_search_state _ _).1).trans (bisect_discard_state d k).1,
               ((bisect_search_state _ _).2).trans (bisect_discard_state d k).2⟩

/-- C2: on every reachable dictionary state, the cached `bisect_left` — and
with it `bisect_right` and `find` — returns exactly what the cache-disabled
variant (always a full binary search) computes, for every key. -/
theorem claim_C2 {α : Type} (d : IntDict α) (h : Reachable d) (k : Int) :
    (intdict_bisect_left d k).1 = bisect_left_nocache d.items k ∧
    (intdict_bisect_right d k).1 = bisect_right_nocache d.items k ∧
    (intdict_find d k).1 = (find_nocache d.items k).isSome ∧
    (intdict_find d k).2.1 = find_nocache d.items k := by
  have hInv := reachable_inv h
  have hs := hInv.1
  have h1 : (intdict_bisect_left d k).1 = bisect_left_nocache d.items k := by
    rw [bisect_left_rank d k hInv, bisect_left_nocache_eq_rank d.items k hs]
  have hcond : ((intdict_bisect_left d k).2.nalloc = 0 ∨
      (intdict_bisect_left d k).2.items.length ≤ (intdict_bisect_left d k).1 ∨
      ((intdict_bisect_left d k).2.items.getD (intdict_bisect_left d k).1 default).key ≠ k)
      ↔ (d.items.length ≤ bisect_left_nocache d.items k ∨
        (d.items.getD (bisect_left_nocache d.items k) default).key ≠ k) := by
    rw [bisect_left_items d k hInv, bisect_left_nalloc d k hInv,
      bisect_left_rank d k hInv, bisect_left_nocache_eq_rank d.items k hs]
    constructor
    · rintro (h0 | hrest)
      · left
        have hl0 : d.items.length = 0 := by
          have := hInv.2.1; omega
        omega
      · exact hrest
    · intro hx; right; exact hx
  refine ⟨h1, ?_, ?_, ?_⟩
  · rw [bisect_right_rankR d k hInv]
    unfold bisect_right_nocache
    rw [bisect_left_nocache_eq_rank d.items k hs]
    exact (scanRightLE_eq_rankR hs (rank_le_rankR d.items k)).symm
  · unfold intdict_find find_nocache
    by_cases hc : (d.items.length ≤ bisect_left_nocache d.items k ∨
        (d.items.getD (bisect_left_nocache d.items k) default).key ≠ k)
    · rw [if_pos (hcond.mpr hc), if_pos hc]; simp
    · rw [if_neg (fun hx => hc (hcond.mp hx)), if_neg hc]; simp
  · unfold intdict_find find_nocache
    by_cases hc : (d.items.length ≤ bisect_left_nocache d.items k ∨
        (d.items.getD (bisect_left_nocache d.items k) default).key ≠ k)
    · rw [if_pos (hcond.mpr hc), if_pos hc]
    · rw [if_neg (fun hx => hc (hcond.mp hx)), if_neg hc]
      simp [h1]

theorem claim_C2_witness :
    Reachable (execOp (execOp (intdict_init (α := Nat)) (DictOp.ins 5 (some 0) true)) (DictOp.bisectL 3)) ∧
    (intdict_bisect_left (execOp (execOp (intdict_init (α := Nat)) (DictOp.ins 5 (some 0) true)) (DictOp.bisectL 3)) 4).1 =
      bisect_left_nocache (execOp (execOp (intdict_init (α := Nat)) (DictOp.ins 5 (some 0) true)) (DictOp.bisectL 3)).items 4 := by
  have hr : Reachable (execOp (execOp (intdict_init (α := Nat)) (DictOp.ins 5 (some 0) true)) (DictOp.bisectL 3)) :=
    Reachable.step _ _ (Reachable.step _ _ Reachable.init)
  exact ⟨hr, (claim_C2 _ hr 4).1⟩

/-- C4: `insert(key, value)` computes `bisect_left(key)` as the insertion
point, grows the store when full, shifts the tail up and writes the entry at
that index; it fails (returns false) exactly on allocation failure during a
needed growth or when the capacity is already the representable maximum; and
on failure the stored entries, their count and positions are exactly as
before the call (strong guarantee). -/
theorem claim_C4 {α : Type} (d : IntDict α) (k : Int) (v : Option α) (ok : Bool)
    (hcap : d.nalloc ≤ SIZE_MAX) :
    ((intdict_insert d k v ok).1 = false ↔
      d.items.length = d.nalloc ∧ (d.nalloc = SIZE_MAX ∨ ok = false)) ∧
    ((intdict_insert d k v ok).1 = false →
      (intdict_insert d k v ok).2.2.items = d.items) ∧
    ((intdict_insert d k v ok).1 = true →
      (intdict_insert d k v ok).2.2.items =
        d.items.insertIdx (intdict_bisect_left d k).1 ⟨k, v⟩ ∧
      (intdict_insert d k v ok).2.1 = some (intdict_bisect_left d k).1) ∧
    ((intdict_insert d k v ok).1 = true → d.items.length = d.nalloc →
      d.nalloc < (intdict_insert d k v ok).2.2.nalloc) := by
  obtain ⟨hBi, hBn⟩ := bisect_left_state_any d k
  unfold intdict_insert insert_after_bisect
  rw [hBi, hBn]
  by_cases hfull : d.items.length = d.nalloc
  · rw [if_pos hfull]
    by_cases hmax : d.nalloc = SIZE_MAX
    · rw [if_pos hmax]
      refine ⟨by simp [hfull, hmax], fun _ => hBi, by simp, by simp⟩
    · rw [if_neg hmax]
      cases ok with
      | true =>
        rw [if_pos rfl]
        obtain ⟨hg1, _⟩ := grow_size_bounds hcap hmax
        refine ⟨by simp [hmax], by simp, ?_, ?_⟩
        · intro _
          exact ⟨rfl, rfl⟩
        · intro _ _
          show d.nalloc < grow_size d.nalloc
          omega
      | false =>
        rw [if_neg (by simp)]
        refine ⟨by simp [hfull], fun _ => hBi, by simp, by simp⟩
  · rw [if_neg hfull]
    refine ⟨by simp [hfull], by simp, ?_, fun _ hf => absurd hf hfull⟩
    intro _
    exact ⟨rfl, rfl⟩

theorem claim_C4_witness :
    (⟨4, [⟨1, some 10⟩], 0, none⟩ : IntDict Nat).nalloc ≤ SIZE_MAX ∧
    ((intdict_insert (⟨4, [⟨1, some 10⟩], 0, none⟩ : IntDict Nat) 2 (some 7) true).1 = true →
      (intdict_insert (⟨4, [⟨1, some 10⟩], 0, none⟩ : IntDict Nat) 2 (some 7) true).2.2.items =
        (⟨4, [⟨1, some 10⟩], 0, none⟩ : IntDict Nat).items.insertIdx
          (intdict_bisect_left (⟨4, [⟨1, some 10⟩], 0, none⟩ : IntDict Nat) 2).1 ⟨2, some 7⟩ ∧
      (intdict_insert (⟨4, [⟨1, some 10⟩], 0, none⟩ : IntDict Nat) 2 (some 7) true).2.1 =
        some (intdict_bisect_left (⟨4, [⟨1, some 10⟩], 0, none⟩ : IntDict Nat) 2).1) := by
  exact ⟨by decide, (claim_C4 (⟨4, [⟨1, some 10⟩], 0, none⟩ : IntDict Nat) 2 (some 7) true (by decide)).2.2.1⟩

/-- The capacity after `intdict_insert`: unchanged, or (not yet saturated)
grown by the growth policy. -/
theorem insert_nalloc_cases {α : Type} (d : IntDict α) (k : Int) (v : Option α)
    (ok : Bool) :
    (intdict_insert d k v ok).2.2.nalloc = d.nalloc ∨
    (d.nalloc ≠ SIZE_MAX ∧ (intdict_insert d k v ok).2.2.nalloc = grow_size d.nalloc) := by
  obtain ⟨hBi, hBn⟩ := bisect_left_state_any d k
  unfold intdict_insert insert_after_bisect
  rw [hBi, hBn]
  by_cases hfull : d.items.length = d.nalloc
  · rw [if_pos hfull]
    by_cases hmax : d.nalloc = SIZE_MAX
    · rw [if_pos hmax]; left; exact hBn
    · rw [if_neg hmax]
      cases ok with
      | true => rw [if_pos rfl]; right; exact ⟨hmax, rfl⟩
      | false => rw [if_neg (by simp)]; left; exact hBn
  · rw [if_neg hfull]; left; rfl

theorem execOp_nalloc {α : Type} (d : IntDict α) (op : DictOp α) :
    (execOp d op).nalloc = d.nalloc ∨
    (d.nalloc ≠ SIZE_MAX ∧ (execOp d op).nalloc = grow_size d.nalloc) := by
  cases op with
  | ins k v ok => exact insert_nalloc_cases d k v ok
  | rem i =>
    left
    show (intdict_remove_at d i).nalloc = d.nalloc
    unfold intdict_remove_at
    split <;> rfl
  | bisectL k => left; exact (bisect_left_state_any d k).2
  | bisectR k =>
    left
    show (intdict_bisect_right d k).2.nalloc = d.nalloc
    unfold intdict_bisect_right
    split
    · rfl
    · exact (bisect_left_state_any d k).2
  | findOp k =>
    left
    show (intdict_find d k).2.2.nalloc = d.nalloc
    unfold intdict_find
    split <;> exact (bisect_left_state_any d k).2

/-- Growing a reachable, unsaturated capacity yields a reachable capacity. -/
theorem reachable_cap_grow {c : Nat} (h : ReachableCap c) (hne : c ≠ SIZE_MAX) :
    ReachableCap (grow_size c) := by
  rcases h with h0 | ⟨kk, hk2, hk63, hc⟩ | hmax
  · subst h0
    right; left
    exact ⟨2, by omega, by omega, by simp [grow_size, ArrayInitSize]⟩
  · subst hc
    have hpos : 0 < (2 : Nat) ^ kk := Nat.pow_pos (by omega)
    by_cases hk : kk ≤ 62
    · right; left
      refine ⟨kk + 1, by omega, by omega, ?_⟩
      have hle : (2 : Nat) ^ kk ≤ 2 ^ 62 := Nat.pow_le_pow_right (by omega) hk
      unfold grow_size
      rw [SIZE_MAX_div, if_pos hpos, if_pos (by norm_num at hle ⊢; omega)]
      rw [pow_succ]
      simp [ArrayGrowthFactor]
    · have hk63' : kk = 63 := by omega
      subst hk63'
      right; right
      unfold grow_size
      rw [SIZE_MAX_div, if_pos hpos, if_neg (by norm_num)]
  · exact absurd hmax hne

/-- Every reachable state's capacity is a value the growth policy can
produce. -/
theorem reachable_cap {α : Type} {d : IntDict α} (h : Reachable d) :
    ReachableCap d.nalloc := by
  induction h with
  | init => left; rfl
  | step d op hr ih =>
    rcases execOp_nalloc d op with heq | ⟨hne, heq⟩
    · rw [heq]; exact ih
    · rw [heq]; exact reachable_cap_grow ih hne





/-- C8: when a full dictionary must grow on insert, a never-allocated store
gets capacity `ArrayInitSize` (4); otherwise the capacity doubles, except
that when doubling would exceed the maximum representable size it saturates
at `SIZE_MAX`; and growth is refused — insert fails and the store is
unchanged — when the capacity is already `SIZE_MAX`. -/
theorem claim_C8 {α : Type} (d : IntDict α) (h : Reachable d)
    (hfull : d.items.length = d.nalloc) (k : Int) (v : Option α) (ok : Bool) :
    (d.nalloc = 0 → ok = true →
      (intdict_insert d k v ok).2.2.nalloc = ArrayInitSize) ∧
    (0 < d.nalloc → 2 * d.nalloc ≤ SIZE_MAX → ok = true →
      (intdict_insert d k v ok).2.2.nalloc = 2 * d.nalloc) ∧
    (0 < d.nalloc → d.nalloc ≠ SIZE_MAX → SIZE_MAX < 2 * d.nalloc → ok = true →
      (intdict_insert d k v ok).2.2.nalloc = SIZE_MAX) ∧
    (d.nalloc = SIZE_MAX →
      (intdict_insert d k v ok).1 = false ∧
      (intdict_insert d k v ok).2.2.items = d.items ∧
      (intdict_insert d k v ok).2.2.nalloc = d.nalloc) := by
  have hcapr := reachable_cap h
  obtain ⟨hBi, hBn⟩ := bisect_left_state_any d k
  have hgrow : d.nalloc ≠ SIZE_MAX → ok = true →
      (intdict_insert d k v ok).2.2.nalloc = grow_size d.nalloc := by
    intro hmax hok
    subst hok
    unfold intdict_insert insert_after_bisect
    rw [hBi, hBn, if_pos hfull, if_neg hmax, if_pos rfl]
  refine ⟨?_, ?_, ?_, ?_⟩
  · intro h0 hok
    rw [hgrow (by rw [h0, SIZE_MAX_eq]; omega) hok, h0]
    simp [grow_size]
  · intro hpos hdle hok
    rcases hcapr with h0 | ⟨kk, hk2, hk63, hc⟩ | hmax
    · omega
    · have hk62 : kk ≤ 62 := by
        by_contra hgt
        have hkk : kk = 63 := by omega
        subst hkk
        rw [hc, SIZE_MAX_eq] at hdle
        norm_num at hdle
      rw [hgrow (by rw [hc, SIZE_MAX_eq]
                    have : (2:Nat) ^ kk ≤ 2 ^ 62 := Nat.pow_le_pow_right (by omega) hk62
                    norm_num at this ⊢
                    omega) hok, hc]
      have hle : (2 : Nat) ^ kk ≤ 2 ^ 62 := Nat.pow_le_pow_right (by omega) hk62
      unfold grow_size
      rw [SIZE_MAX_div, if_pos (Nat.pow_pos (by omega)),
        if_pos (by norm_num at hle ⊢; omega)]
      simp [ArrayGrowthFactor]
      ring
    · rw [hmax, SIZE_MAX_eq] at hdle
      omega
  · intro hpos hmax hlt hok
    rcases hcapr with h0 | ⟨kk, hk2, hk63, hc⟩ | hmax'
    · omega
    · have hkk : kk = 63 := by
        by_contra hne
        have hk62 : kk ≤ 62 := by omega
        have hle : (2 : Nat) ^ kk ≤ 2 ^ 62 := Nat.pow_le_pow_right (by omega) hk62
        rw [hc, SIZE_MAX_eq] at hlt
        norm_num at hle
        omega
      subst hkk
      rw [hgrow hmax hok, hc]
      unfold grow_size
      rw [SIZE_MAX_div, if_pos (Nat.pow_pos (by omega)), if_neg (by norm_num)]
    · exact absurd hmax' hmax
  · intro hmax
    unfold intdict_insert insert_after_bisect
    rw [hBi, hBn, if_pos hfull, if_pos hmax]
    exact ⟨rfl, hBi, hBn⟩

theorem claim_C8_witness :
    Reachable (intdict_init (α := Nat)) ∧
    (intdict_init (α := Nat)).items.length = (intdict_init (α := Nat)).nalloc ∧
    ((intdict_init (α := Nat)).nalloc = 0 →  true = true →
      (intdict_insert (intdict_init (α := Nat)) 7 (some 0) true).2.2.nalloc = ArrayInitSize) :=
  ⟨Reachable.init, rfl,
   (claim_C8 (intdict_init (α := Nat)) Reachable.init rfl 7 (some 0) true).1⟩

/-- C5 counterexample: on the one-entry dictionary with key 10, searching
for 15 returns index 1 while the cache records slot 0 (the last slot the
binary search probed): the slot recorded in the cache does not equal the
index `bisect_left` returned. -/
theorem claim_C5_cex :
    (intdict_bisect_left (⟨4, [⟨10, some 0⟩], 0, none⟩ : IntDict Nat) 15).1 = 1 ∧
    (intdict_bisect_left (⟨4, [⟨10, some 0⟩], 0, none⟩ : IntDict Nat) 15).2.candidate = some 0 ∧
    (intdict_bisect_left (⟨4, [⟨10, some 0⟩], 0, none⟩ : IntDict Nat) 15).2.candidate ≠
      some ((intdict_bisect_left (⟨4, [⟨10, some 0⟩], 0, none⟩ : IntDict Nat) 15).1) := by
  refine ⟨?_, ?_, ?_⟩ <;>
    simp [intdict_bisect_left, bisect_discard, bisect_search, bsearch_last_probe,
      correct, scanFwd, scanBack]

/-- C5 amended: at return from `bisect_left(key)` on a non-empty
dictionary, the cache holds a key equal to `key` as its `sought_key` and a
valid in-range slot as its candidate — the last slot probed by the binary
search (or the reused cached slot), from which the local linear correction
reproduces the returned index — but not, in general, the returned boundary
index itself. -/
theorem claim_C5_amended {α : Type} (d : IntDict α) (key : Int) (h : Inv d)
    (h0 : d.nalloc ≠ 0) (h1 : 0 < d.items.length) :
    (intdict_bisect_left d key).2.sought_key = key ∧
    ∃ ci, (intdict_bisect_left d key).2.candidate = some ci ∧
      ci < d.items.length ∧
      correct d.items key ci = (intdict_bisect_left d key).1 :=
  (bisect_left_spec d key h).2.2.2.2 h1 h0

theorem claim_C5_witness :
    Inv (⟨4, [⟨10, some 0⟩], 0, none⟩ : IntDict Nat) ∧
    (⟨4, [⟨10, some 0⟩], 0, none⟩ : IntDict Nat).nalloc ≠ 0 ∧
    0 < (⟨4, [⟨10, some 0⟩], 0, none⟩ : IntDict Nat).items.length ∧
    (intdict_bisect_left (⟨4, [⟨10, some 0⟩], 0, none⟩ : IntDict Nat) 15).2.sought_key = 15 := by
  have hInv : Inv (⟨4, [⟨10, some 0⟩], 0, none⟩ : IntDict Nat) :=
    ⟨by unfold SortedItems; decide, by decide, by decide, fun i hi => nomatch hi⟩
  exact ⟨hInv, by decide, by decide,
    (claim_C5_amended (⟨4, [⟨10, some 0⟩], 0, none⟩ : IntDict Nat) 15 hInv
      (by decide) (by decide)).1⟩

/-- C7: for an iterator with at least one prior successful advance,
`remove()` removes the entry most recently yielded (the one at
`next_index - 1`), decrements both `end` and `next_index` in lockstep, and
returns the removed entry's former index; consequently iterating a whole
dictionary of `N` entries while removing every other yielded element
performs `N` advances and leaves exactly the non-removed entries, in their
original relative order. -/
theorem claim_C7 {α : Type} (it : IntDictVIter) (d : IntDict α)
    (hadv : 0 < it.next_index) (hend : 0 < it.endi) (h3 : d.nalloc ≠ 0) :
    (intdictviter_remove it d).1 = it.next_index - 1 ∧
    (intdictviter_remove it d).2.1 = ⟨it.next_index - 1, it.endi - 1⟩ ∧
    (intdictviter_remove it d).2.2.items = d.items.eraseIdx (it.next_index - 1) ∧
    (runAlt d ⟨0, d.items.length⟩ true).1 = d.items.length ∧
    (runAlt d ⟨0, d.items.length⟩ true).2.items = altKeep true d.items := by
  have hrun := runAlt_spec d.items [] d true h3 (by simp)
  simp only [List.length_nil, Nat.zero_add, List.nil_append] at hrun
  refine ⟨rfl, rfl, ?_, hrun.1, hrun.2.1⟩
  show (intdict_remove_at d (it.next_index - 1)).items = d.items.eraseIdx (it.next_index - 1)
  unfold intdict_remove_at
  rw [if_neg h3]

theorem claim_C7_witness :
    0 < (⟨1, 1⟩ : IntDictVIter).next_index ∧
    0 < (⟨1, 1⟩ : IntDictVIter).endi ∧
    (⟨4, [⟨5, some 0⟩, ⟨6, some 1⟩], 0, none⟩ : IntDict Nat).nalloc ≠ 0 ∧
    (runAlt (⟨4, [⟨5, some 0⟩, ⟨6, some 1⟩], 0, none⟩ : IntDict Nat)
        ⟨0, (⟨4, [⟨5, some 0⟩, ⟨6, some 1⟩], 0, none⟩ : IntDict Nat).items.length⟩ true).2.items =
      altKeep true (⟨4, [⟨5, some 0⟩, ⟨6, some 1⟩], 0, none⟩ : IntDict Nat).items := by
  exact ⟨by decide, by decide, by decide,
    (claim_C7 (⟨1, 1⟩ : IntDictVIter) (⟨4, [⟨5, some 0⟩, ⟨6, some 1⟩], 0, none⟩ : IntDict Nat)
      (by decide) (by decide) (by decide)).2.2.2.2⟩

/-- C9 counterexample: on a one-entry dictionary, immediately after
`init_range(0, 2)` returns, `next_index` is 1, not `bisect_left(0) = 0`,
because the initialiser performs one `advance` before returning. -/
theorem claim_C9_cex :
    (intdictviter_init (⟨4, [⟨1, some 0⟩], 0, none⟩ : IntDict Nat) 0 2).2.1.next_index ≠
      (intdict_bisect_left (⟨4, [⟨1, some 0⟩], 0, none⟩ : IntDict Nat) 0).1 := by
  simp [intdictviter_init, intdictviter_advance, intdict_bisect_left, intdict_bisect_right,
    bisect_discard, bisect_search, bsearch_last_probe, correct, scanFwd, scanBack,
    scanRightLE, intdict_get_value_at]

/-- C9 amended: `init_range(dict, min_key, max_key)` sets
`next_index = bisect_left(min_key)` and `end = bisect_right(max_key)` and
then immediately performs one `advance` (whose result it returns), so at
the observable point right after init returns, `end` equals the
`bisect_right` result while `next_index` equals the `bisect_left` result
plus one when the range is non-empty — and equals it exactly when the range
is empty; `init_all` does the same with the full range `[0, count)`. -/
theorem claim_C9_amended {α : Type} (d : IntDict α) (min_key max_key : Int) :
    (intdictviter_init d min_key max_key).2.1.endi =
      (intdict_bisect_right (intdict_bisect_left d min_key).2 max_key).1 ∧
    (intdictviter_init d min_key max_key).2.1.next_index =
      (if (intdict_bisect_left d min_key).1 <
          (intdict_bisect_right (intdict_bisect_left d min_key).2 max_key).1
       then (intdict_bisect_left d min_key).1 + 1
       else (intdict_bisect_left d min_key).1) ∧
    (intdictviter_all_init d).2.1.endi = d.items.length ∧
    (intdictviter_all_init d).2.1.next_index = (if 0 < d.items.length then 1 else 0) := by
  refine ⟨?_, ?_, ?_, ?_⟩
  · unfold intdictviter_init intdictviter_advance
    split <;> rfl
  · unfold intdictviter_init intdictviter_advance
    split
    · next h => dsimp only [] at h ⊢
    · next h => dsimp only [] at h ⊢
  · unfold intdictviter_all_init intdictviter_advance
    split <;> rfl
  · unfold intdictviter_all_init intdictviter_advance
    split
    · next h => dsimp only [] at h ⊢
    · next h => dsimp only [] at h ⊢

/-- C10: the iterator signals exhaustion by returning a null value, but a
stored value reference may itself be null: advancing onto an in-range entry
whose value is null returns null while still consuming that entry, and
there are states where `advance` — and `init_all`, which returns the first
`advance` — yields null although the range is not exhausted; hence a null
return does not imply exhaustion. -/
theorem claim_C10 {α : Type} (it : IntDictVIter) (d : IntDict α)
    (h1 : it.next_index < it.endi)
    (h2 : (d.items.getD it.next_index default).value = none) :
    (intdictviter_advance it d).1 = none ∧
    (intdictviter_advance it d).2.next_index = it.next_index + 1 ∧
    (intdictviter_advance it d).2.endi = it.endi ∧
    (∃ (it2 : IntDictVIter) (d2 : IntDict Nat),
      (intdictviter_advance it2 d2).1 = none ∧
      (intdictviter_advance it2 d2).2.next_index < it2.endi) ∧
    (∃ d3 : IntDict Nat,
      (intdictviter_all_init d3).1 = none ∧
      (intdictviter_all_init d3).2.1.next_index < (intdictviter_all_init d3).2.1.endi) := by
  refine ⟨?_, ?_, ?_, ?_, ?_⟩
  · unfold intdictviter_advance
    rw [if_pos h1]
    exact h2
  · unfold intdictviter_advance
    rw [if_pos h1]
  · unfold intdictviter_advance
    rw [if_pos h1]
  · exact ⟨⟨0, 2⟩, ⟨4, [⟨1, none⟩, ⟨2, some 5⟩], 0, none⟩, by decide, by decide⟩
  · exact ⟨⟨4, [⟨1, none⟩, ⟨2, some 5⟩], 0, none⟩, by decide, by decide⟩

theorem claim_C10_witness :
    (⟨0, 2⟩ : IntDictVIter).next_index < (⟨0, 2⟩ : IntDictVIter).endi ∧
    ((⟨4, [⟨1, none⟩, ⟨2, some 5⟩], 0, none⟩ : IntDict Nat).items.getD
      (⟨0, 2⟩ : IntDictVIter).next_index default).value = none ∧
    (intdictviter_advance (⟨0, 2⟩ : IntDictVIter)
      (⟨4, [⟨1, none⟩, ⟨2, some 5⟩], 0, none⟩ : IntDict Nat)).1 = none := by
  exact ⟨by decide, by decide,
    (claim_C10 (⟨0, 2⟩ : IntDictVIter) (⟨4, [⟨1, none⟩, ⟨2, some 5⟩], 0, none⟩ : IntDict Nat)
      (by decide) (by decide)).1⟩

theorem strdict_bisect_discard_sought {α : Type} (d : StrDict α) (key : List Nat) :
    (strdict_bisect_discard d key).sought_key = d.sought_key := by
  unfold strdict_bisect_discard; split <;> rfl

/-- C6: in the string variant, if the defensive copy of the search key
cannot be allocated during `bisect_left`, the cache holds the caller's raw
key pointer only for the duration of that single call — it is explicitly
cleared (sought key and candidate) before `bisect_left` returns; hence at
every point between public calls the cache's sought key is never the
caller's raw pointer, so no later call can reuse a pointer the caller might
have freed. -/
theorem claim_C6 {α : Type} (d : StrDict α) (key : List Nat) (allocOk : Bool)
    (hpre : ∀ s, d.sought_key ≠ SoughtKey.borrowed s) :
    (∀ s, (strdict_bisect_left d key allocOk).2.sought_key ≠ SoughtKey.borrowed s) ∧
    (d.nalloc ≠ 0 → d.items.length ≠ 0 →
      (strdict_bisect_discard d key).candidate = none → allocOk = false →
      (strdict_bisect_left d key allocOk).2.sought_key = SoughtKey.none ∧
      (strdict_bisect_left d key allocOk).2.candidate = none) := by
  have hds := strdict_bisect_discard_sought d key
  constructor
  · intro s
    rw [strdict_bisect_left_state]
    by_cases h0 : d.nalloc = 0
    · rw [if_pos h0]; exact hpre s
    rw [if_neg h0]
    by_cases h1 : d.items.length = 0
    · rw [if_pos h1]; exact hpre s
    rw [if_neg h1]
    by_cases hcand : (strdict_bisect_discard d key).candidate = none
    · cases allocOk with
      | true =>
        have hsearch : (strdict_bisect_search (strdict_bisect_discard d key) key
            true).sought_key = SoughtKey.owned key := by
          unfold strdict_bisect_search
          rw [if_pos hcand, if_pos rfl]
        unfold strdict_bisect_cleanup
        rw [if_neg (by rw [hsearch]; intro hx; exact nomatch hx)]
        rw [hsearch]
        intro hx
        exact nomatch hx
      | false =>
        have hsearch : (strdict_bisect_search (strdict_bisect_discard d key) key
            false).sought_key = SoughtKey.borrowed key := by
          unfold strdict_bisect_search
          rw [if_pos hcand, if_neg (by simp)]
        unfold strdict_bisect_cleanup
        rw [if_pos hsearch]
        intro hx
        exact nomatch hx
    · have hsearch : strdict_bisect_search (strdict_bisect_discard d key) key allocOk =
          strdict_bisect_discard d key := by
        unfold strdict_bisect_search
        rw [if_neg hcand]
      rw [hsearch]
      unfold strdict_bisect_cleanup
      rw [if_neg (by rw [hds]; exact hpre key)]
      rw [hds]
      exact hpre s
  · intro h0 h1 hcand hok
    subst hok
    have hsearch : (strdict_bisect_search (strdict_bisect_discard d key) key
        false).sought_key = SoughtKey.borrowed key := by
      unfold strdict_bisect_search
      rw [if_pos hcand, if_neg (by simp)]
    rw [strdict_bisect_left_state, if_neg h0, if_neg h1]
    unfold strdict_bisect_cleanup
    rw [if_pos hsearch]
    exact ⟨rfl, rfl⟩

theorem claim_C6_witness :
    (∀ s, (⟨4, [⟨[97], some 0⟩], SoughtKey.none, none⟩ : StrDict Nat).sought_key ≠
      SoughtKey.borrowed s) ∧
    (⟨4, [⟨[97], some 0⟩], SoughtKey.none, none⟩ : StrDict Nat).nalloc ≠ 0 ∧
    ((strdict_bisect_left (⟨4, [⟨[97], some 0⟩], SoughtKey.none, none⟩ : StrDict Nat)
        [98] false).2.sought_key = SoughtKey.none ∧
     (strdict_bisect_left (⟨4, [⟨[97], some 0⟩], SoughtKey.none, none⟩ : StrDict Nat)
        [98] false).2.candidate = none) := by
  have hpre : ∀ s, (⟨4, [⟨[97], some 0⟩], SoughtKey.none, none⟩ : StrDict Nat).sought_key ≠
      SoughtKey.borrowed s := fun s hx => nomatch hx
  exact ⟨hpre, by decide,
    (claim_C6 (⟨4, [⟨[97], some 0⟩], SoughtKey.none, none⟩ : StrDict Nat) [98] false hpre).2
      (by decide) (by decide) (by decide) rfl⟩

end CBUtilLib



